import Mathlib

/-!
Verification of the WebDAV filesystem adapter (`src/webdav-fs.ts`,
`src/utils.ts`, `src/errors.ts`) of the zen-fs-webdav repository.

JavaScript strings are modelled as `List Char`; every path- and
URL-manipulating function below is a direct translation of the
corresponding TypeScript function, working character by character the way
the original works on its string (regular expressions are translated into
the explicit scans they denote).  The HTTP server is out of scope of the
spec and is modelled at the interface level: a PROPFIND answer is a parsed
multistatus entry list, and for the stateful composite operations (mkdir,
rm, writeFile) an idealized server state maps normalized paths to entries.
-/

/-- A JavaScript string, modelled as its list of characters. -/
abbrev JSStr := List Char

/-- Coerce a Lean string literal to the model representation. -/
def js (s : String) : JSStr := s.data

/-! ## Path utilities (`src/utils.ts`) -/

/-- Model of the first step of `normalizePath`:
`if (!path.startsWith('/')) path = '/' + path`. -/
def ensureLeadingSlash (s : JSStr) : JSStr :=
  if s.head? = some '/' then s else '/' :: s

/-- Scan implementing the global replace of slash runs: the first argument
is the previously emitted character; a slash directly following an emitted
slash is dropped. -/
def collapseAux : Char → JSStr → JSStr
  | _, [] => []
  | p, c :: t => if p = '/' ∧ c = '/' then collapseAux p t else c :: collapseAux c t

/-- Model of `path.replace(/\/+/g, '/')`: every maximal run of slashes is
collapsed to a single slash. -/
def collapseSlashes : JSStr → JSStr
  | [] => []
  | c :: t => c :: collapseAux c t

/-- No two adjacent slashes occur in the string. -/
def noDoubleSlash : JSStr → Bool
  | a :: b :: t => !(a = '/' && b = '/') && noDoubleSlash (b :: t)
  | _ => true

/-- Model of `if (path.length > 1 && path.endsWith('/')) path = path.slice(0, -1)`. -/
def stripOneTrailingSlash (s : JSStr) : JSStr :=
  if 1 < s.length ∧ s.getLast? = some '/' then s.dropLast else s

/-- `normalizePath` from `src/utils.ts` lines 11-23: prepend a slash if
missing, collapse runs of slashes, drop one trailing slash unless the
result is the root. -/
def normalizePath (s : JSStr) : JSStr :=
  stripOneTrailingSlash (collapseSlashes (ensureLeadingSlash s))

/-- The invariants `normalizePath` establishes: leading slash, no double
slash, and no trailing slash except for the root path itself. -/
def IsNormalizedPath (s : JSStr) : Prop :=
  s.head? = some '/' ∧ noDoubleSlash s = true ∧ (s = js "/" ∨ s.getLast? ≠ some '/')

instance (s : JSStr) : Decidable (IsNormalizedPath s) := by
  unfold IsNormalizedPath
  infer_instance

lemma collapseAux_noDouble (t : JSStr) :
    ∀ c, noDoubleSlash (c :: collapseAux c t) = true := by
  induction t with
  | nil => intro c; rfl
  | cons d t ih =>
    intro c
    by_cases h : c = '/' ∧ d = '/'
    · rw [collapseAux, if_pos h]
      exact ih c
    · rw [collapseAux, if_neg h]
      have hd := ih d
      rw [noDoubleSlash]
      simp only [Bool.and_eq_true, Bool.not_eq_true']
      refine ⟨?_, hd⟩
      by_cases hc : c = '/'
      · by_cases hdd : d = '/'
        · exact absurd ⟨hc, hdd⟩ h
        · simp [hdd]
      · simp [hc]

lemma collapseAux_fixed (t : JSStr) :
    ∀ c, noDoubleSlash (c :: t) = true → collapseAux c t = t := by
  induction t with
  | nil => intro c _; rfl
  | cons d t ih =>
    intro c h
    rw [noDoubleSlash, Bool.and_eq_true, Bool.not_eq_true'] at h
    obtain ⟨h1, h2⟩ := h
    have hne : ¬(c = '/' ∧ d = '/') := by
      intro hc
      rw [hc.1, hc.2] at h1
      simp at h1
    rw [collapseAux, if_neg hne, ih d h2]

lemma collapseSlashes_noDouble (s : JSStr) :
    noDoubleSlash (collapseSlashes s) = true := by
  cases s with
  | nil => rfl
  | cons c t => rw [collapseSlashes]; exact collapseAux_noDouble t c

lemma collapseSlashes_fixed (s : JSStr) (h : noDoubleSlash s = true) :
    collapseSlashes s = s := by
  cases s with
  | nil => rfl
  | cons c t => rw [collapseSlashes, collapseAux_fixed t c h]

lemma noDoubleSlash_dropLast (s : JSStr) (h : noDoubleSlash s = true) :
    noDoubleSlash s.dropLast = true := by
  induction s with
  | nil => rfl
  | cons a t ih =>
    match t, h with
    | [], _ => rfl
    | [b], _ => rfl
    | b :: c :: t, h =>
      rw [noDoubleSlash, Bool.and_eq_true] at h
      have htail := ih h.2
      show noDoubleSlash ((a :: b :: c :: t).dropLast) = true
      rw [List.dropLast_cons₂, List.dropLast_cons₂]
      rw [List.dropLast_cons₂] at htail
      rw [noDoubleSlash, Bool.and_eq_true]
      exact ⟨h.1, htail⟩

lemma noDoubleSlash_dropLast_getLast (s : JSStr) (h : noDoubleSlash s = true)
    (hl : s.getLast? = some '/') : s.dropLast.getLast? ≠ some '/' := by
  induction s with
  | nil => simp
  | cons a t ih =>
    match t, h, hl with
    | [], _, _ => simp
    | [b], h, hl =>
      have hb : b = '/' := by
        rw [List.getLast?_cons_cons] at hl
        simpa using hl
      rw [noDoubleSlash, Bool.and_eq_true, Bool.not_eq_true'] at h
      have ha : ¬ a = '/' := by
        intro hc
        have h1 := h.1
        rw [hc, hb] at h1
        simp at h1
      show ([a, b].dropLast).getLast? ≠ some '/'
      rw [List.dropLast_cons₂, List.dropLast_single]
      simpa using ha
    | b :: c :: t, h, hl =>
      rw [noDoubleSlash, Bool.and_eq_true] at h
      have hl2 : (b :: c :: t).getLast? = some '/' := by
        rw [List.getLast?_cons_cons] at hl
        exact hl
      have hrec := ih h.2 hl2
      show ((a :: b :: c :: t).dropLast).getLast? ≠ some '/'
      rw [List.dropLast_cons₂, List.dropLast_cons₂, List.getLast?_cons_cons,
        ← List.dropLast_cons₂]
      exact hrec

lemma ensureLeadingSlash_head (s : JSStr) :
    (ensureLeadingSlash s).head? = some '/' := by
  unfold ensureLeadingSlash
  by_cases h : s.head? = some '/'
  · rw [if_pos h]; exact h
  · rw [if_neg h]; rfl

/-- `normalizePath` output satisfies the normalized-path invariants. -/
lemma normalizePath_isNormalized (s : JSStr) : IsNormalizedPath (normalizePath s) := by
  obtain ⟨t, hat⟩ : ∃ t, ensureLeadingSlash s = '/' :: t := by
    have hhead := ensureLeadingSlash_head s
    cases hE : ensureLeadingSlash s with
    | nil => rw [hE] at hhead; simp at hhead
    | cons a u =>
      rw [hE] at hhead
      simp only [List.head?_cons, Option.some.injEq] at hhead
      exact ⟨u, by rw [hhead]⟩
  have hnd : noDoubleSlash (collapseSlashes (ensureLeadingSlash s)) = true :=
    collapseSlashes_noDouble _
  obtain ⟨u, hu⟩ : ∃ u, collapseSlashes (ensureLeadingSlash s) = '/' :: u :=
    ⟨collapseAux '/' t, by rw [hat, collapseSlashes]⟩
  unfold normalizePath
  rw [hu] at hnd ⊢
  unfold stripOneTrailingSlash
  by_cases hcond : 1 < ('/' :: u).length ∧ ('/' :: u).getLast? = some '/'
  · rw [if_pos hcond]
    obtain ⟨b, v, hbv⟩ : ∃ b v, u = b :: v := by
      cases u with
      | nil => simp at hcond
      | cons b v => exact ⟨b, v, rfl⟩
    have hhead2 : (('/' :: u).dropLast).head? = some '/' := by
      rw [hbv, List.dropLast_cons₂]
      simp
    refine ⟨hhead2, noDoubleSlash_dropLast _ hnd, Or.inr ?_⟩
    exact noDoubleSlash_dropLast_getLast _ hnd hcond.2
  · rw [if_neg hcond]
    push_neg at hcond
    refine ⟨rfl, hnd, ?_⟩
    cases u with
    | nil => exact Or.inl rfl
    | cons b v =>
      refine Or.inr ?_
      intro hlast
      exact absurd hlast (hcond (by simp))

/-- A path already in normalized form is untouched by `normalizePath`. -/
lemma normalizePath_fixed (s : JSStr) (h : IsNormalizedPath s) :
    normalizePath s = s := by
  obtain ⟨h1, h2, h3⟩ := h
  unfold normalizePath ensureLeadingSlash
  rw [if_pos h1, collapseSlashes_fixed s h2]
  unfold stripOneTrailingSlash
  rcases h3 with h3 | h3
  · rw [h3]
    rfl
  · rw [if_neg (by intro hc; exact h3 hc.2)]

/-- C8: `normalizePath` is idempotent, and the three sample values hold:
`normalizePath("") = "/"`, `normalizePath("///") = "/"`,
`normalizePath("a/b/") = "/a/b"`. -/
theorem normalizePath_idempotent :
    (∀ p : JSStr, normalizePath (normalizePath p) = normalizePath p) ∧
    normalizePath (js "") = js "/" ∧
    normalizePath (js "///") = js "/" ∧
    normalizePath (js "a/b/") = js "/a/b" := by
  refine ⟨fun p => normalizePath_fixed _ (normalizePath_isNormalized p), ?_, ?_, ?_⟩
  · decide
  · decide
  · decide

/-! ## Error taxonomy (`src/errors.ts`) and response-error handling -/

/-- The error classes of `src/errors.ts`, one constructor per class.
`generic` is the base `WebDAVError` with its optional HTTP status. -/
inductive WebDAVErr where
  | generic (status : Option Nat)
  | notFound
  | authentication
  | authorization
  | server (status : Nat)
  | fileExists
  | locked
  | timeout
  | network
  | argument
  deriving DecidableEq

/-- `WebDAVFS.handleResponseError` (`src/webdav-fs.ts` lines 167-180): a
switch on the HTTP status code.  Statuses 412 and 423 have no case of
their own and fall through to the `default` branch, which throws
`ServerError` carrying the status. -/
def handleResponseError (status : Nat) : WebDAVErr :=
  if status = 401 then .authentication
  else if status = 403 then .authorization
  else if status = 404 then .notFound
  else if status = 409 then .fileExists
  else .server status

/-- C1 counterexample: contrary to the claim, status 412 does not produce
an already-exists error and status 423 does not produce a locked error;
both fall through to `ServerError`. -/
theorem handleResponseError_412_423_counterexample :
    handleResponseError 412 = WebDAVErr.server 412 ∧
    handleResponseError 412 ≠ WebDAVErr.fileExists ∧
    handleResponseError 423 = WebDAVErr.server 423 ∧
    handleResponseError 423 ≠ WebDAVErr.locked := by
  refine ⟨by decide, by decide, by decide, by decide⟩

/-- C1 (amended): for statuses at least 400 the handler maps 401 to
authentication-failed, 403 to permission-denied, 404 to not-found, 409 to
already-exists, and every other status (including 412 and 423) to a
server error carrying that status. -/
theorem handleResponseError_amended :
    handleResponseError 401 = WebDAVErr.authentication ∧
    handleResponseError 403 = WebDAVErr.authorization ∧
    handleResponseError 404 = WebDAVErr.notFound ∧
    handleResponseError 409 = WebDAVErr.fileExists ∧
    ∀ s : Nat, 400 ≤ s → s ≠ 401 → s ≠ 403 → s ≠ 404 → s ≠ 409 →
      handleResponseError s = WebDAVErr.server s := by
  refine ⟨by decide, by decide, by decide, by decide, ?_⟩
  intro s _ h1 h3 h4 h9
  unfold handleResponseError
  rw [if_neg h1, if_neg h3, if_neg h4, if_neg h9]

/-- Witness for the amended C1 theorem at status 500. -/
theorem handleResponseError_amended_witness :
    handleResponseError 500 = WebDAVErr.server 500 :=
  handleResponseError_amended.2.2.2.2 500 (by decide) (by decide) (by decide)
    (by decide) (by decide)

/-! ## `joinUrl` (`src/utils.ts` lines 528-559) -/

/-- Split a string at the first occurrence of a non-empty pattern,
returning the pieces before and after it. -/
def splitAtSub (pat : JSStr) : JSStr → Option (JSStr × JSStr)
  | [] => none
  | c :: t =>
    if pat.isPrefixOf (c :: t) then some ([], (c :: t).drop pat.length)
    else
      match splitAtSub pat t with
      | some (a, b) => some (c :: a, b)
      | none => none

/-- Modelled behavior of `new URL(base).pathname` for the URL shapes the
adapter builds: absolute `scheme://host/path` URLs without query or
fragment.  The pathname is everything from the first slash after the
authority, or `/` when none follows; a base without a `scheme://` part
does not parse, which is the `catch` branch of `joinUrl`. -/
def urlPathname (base : JSStr) : Option JSStr :=
  match splitAtSub (js "://") base with
  | none => none
  | some (scheme, rest) =>
    if scheme = [] then none
    else
      match splitAtSub (js "/") rest with
      | none => some (js "/")
      | some (_, tail) => some ('/' :: tail)

/-- Model of `s.replace(/\/+$/, '')`: drop every trailing slash. -/
def stripTrailingSlashes (s : JSStr) : JSStr :=
  (s.reverse.dropWhile (fun c => c = '/')).reverse

/-- Model of `p.split('/').filter(Boolean)`: the non-empty
slash-separated segments. -/
def splitSlashSegs (s : JSStr) : List JSStr :=
  (s.splitOn '/').filter (fun seg => seg ≠ [])

/-- Model of `parts.join('/')`. -/
def joinWithSlash : List JSStr → JSStr
  | [] => []
  | [x] => x
  | x :: y :: rest => x ++ '/' :: joinWithSlash (y :: rest)

/-- Scanner for the global replace `url.replace(/([^:]\/)\/+/g, '$1')`.
The two `Option Char` arguments are the last two characters consumed
without being part of a match (a match resets them, since a regex scan
resumes after the matched text); the `Bool` is true while the tail of a
matched slash run is being discarded. -/
def collapseUrlAux : Bool → Option Char → Option Char → JSStr → JSStr
  | _, _, _, [] => []
  | true, p2, p1, c :: t =>
    if c = '/' then collapseUrlAux true p2 p1 t
    else c :: collapseUrlAux false none (some c) t
  | false, p2, p1, c :: t =>
    if p2 ≠ some ':' ∧ p2 ≠ none ∧ p1 = some '/' ∧ c = '/' then
      collapseUrlAux true none none t
    else c :: collapseUrlAux false p1 (some c) t

/-- Model of `url.replace(/([^:]\/)\/+/g, '$1')`: collapse double slashes
except directly after a colon (preserving the `scheme://`). -/
def collapseUrlSlashes (s : JSStr) : JSStr :=
  collapseUrlAux false none none s

/-- `joinUrl` from `src/utils.ts` lines 528-559: resolve the base URL path,
deduplicate the mount prefix from the first appended path, then append all
paths with single slashes. -/
def joinUrl (base : JSStr) (paths0 : List JSStr) : JSStr :=
  let basePath :=
    match urlPathname base with
    | some pn => stripTrailingSlashes pn
    | none => if base.head? = some '/' then stripTrailingSlashes base else []
  let paths :=
    match paths0 with
    | [] => paths0
    | p :: rest =>
      if basePath ≠ [] ∧ p ≠ [] then
        match (splitSlashSegs basePath).head?, splitSlashSegs p with
        | some baseFirst, q :: qRest =>
          if q = baseFirst then
            let pJoined := joinWithSlash qRest
            let pJoined :=
              if pJoined ≠ [] ∧ pJoined.head? ≠ some '/' then '/' :: pJoined
              else pJoined
            pJoined :: rest
          else p :: rest
        | _, _ => p :: rest
      else p :: rest
  let url := paths.foldl
    (fun url p =>
      if p = [] then url
      else
        let url2 := if url.getLast? ≠ some '/' then url ++ [ '/' ] else url
        url2 ++ (if p.head? = some '/' then p.drop 1 else p))
    base
  collapseUrlSlashes url

/-- C9: `joinUrl` collapses a duplicated mount prefix on the two sample
inputs from the specification. -/
theorem joinUrl_mount_prefix_dedup :
    joinUrl (js "http://h/webdav") [js "/webdav/file.txt"] =
      js "http://h/webdav/file.txt" ∧
    joinUrl (js "http://h/webdav/") [js "/webdav/"] = js "http://h/webdav/" := by
  refine ⟨by decide, by decide⟩

/-! ## Multistatus parsing (`parseWebDAVXml`, `src/utils.ts` lines 466-520)

The XML parser itself (fast-xml-parser) is out of scope; a `<response>`
element is modelled by the data the adapter extracts from it through
`getCaseInsensitive`: the decoded href, whether the `resourcetype`
property is present and truthy, whether a `collection` child was found
inside it, and the raw text of `getcontentlength` / `getlastmodified`. -/

structure RawResponse where
  href : JSStr
  resourcetypeTruthy : Bool
  hasCollection : Bool
  getcontentlength : Option JSStr
  getlastmodified : Option JSStr
  deriving DecidableEq

/-- The `Stats` record assembled per entry (`src/types.ts`).  `size` is
`none` when the JavaScript `parseInt` produced `NaN`; `lastModified`
keeps the raw property text, since `Date` construction is environment
behavior outside the adapter. -/
structure Stats where
  path : JSStr
  name : JSStr
  isDirectory : Bool
  isFile : Bool
  size : Option Int
  lastModified : Option JSStr
  deriving DecidableEq

/-- JavaScript whitespace skipped by `parseInt`. -/
def isJsWhitespace (c : Char) : Bool :=
  c = ' ' || c = '\t' || c = '\n' || c = '\r' || c = '\x0b' || c = '\x0c'

/-- The numeric value of the leading digit run, or `none` when there is
no leading digit (`parseInt` then yields `NaN`). -/
def digitsValue (r : JSStr) : Option Nat :=
  if r.takeWhile (fun c => c.isDigit) = [] then none
  else some ((r.takeWhile (fun c => c.isDigit)).foldl
    (fun acc c => acc * 10 + (c.toNat - 48)) 0)

/-- Sign handling of `parseInt` after whitespace has been skipped. -/
def jsParseIntCore : JSStr → Option Int
  | [] => none
  | c :: r =>
    if c = '-' then (digitsValue r).map (fun n => -(Int.ofNat n))
    else if c = '+' then (digitsValue r).map (fun n => Int.ofNat n)
    else (digitsValue (c :: r)).map (fun n => Int.ofNat n)

/-- Model of `parseInt(s, 10)`: skip leading whitespace, read an optional
sign and then the longest digit prefix; `none` models `NaN`. -/
def jsParseInt10 (s : JSStr) : Option Int :=
  jsParseIntCore (s.dropWhile isJsWhitespace)

/-- Model of `href.replace(basePath, '')`: remove the first occurrence of
`basePath` anywhere in the string (a string pattern in JavaScript
`replace` substitutes only its first occurrence). -/
def replaceFirstWithEmpty (pat : JSStr) (s : JSStr) : JSStr :=
  match splitAtSub pat s with
  | some (a, b) => a ++ b
  | none => s

/-- Model of `.replace(/^\//, '')`. -/
def stripLeadingSlashOnce (s : JSStr) : JSStr :=
  if s.head? = some '/' then s.drop 1 else s

/-- Model of `.replace(/\/$/, '')`. -/
def stripTrailSlashOnce (s : JSStr) : JSStr :=
  if s.getLast? = some '/' then s.dropLast else s

/-- Model of `href.split('/').filter(Boolean).pop() || ''`. -/
def lastSegment (s : JSStr) : JSStr :=
  ((splitSlashSegs s).getLast?).getD []

/-- `parseWebDAVXml` (`src/utils.ts` lines 466-520) at the entry level:
for each `<response>`, compute the flag `isDirectory`, derive the entry
name (last path segment when the base path does not end with a slash,
otherwise the href with the base path, a leading and a trailing slash
removed), discard entries whose derived name is empty, and build Stats
with `size` from `parseInt(getcontentlength ?? '0', 10)`. -/
def parseWebDAVXml (rs : List RawResponse) (basePath : JSStr) : List Stats :=
  let isBasePathFile := basePath ≠ [] ∧ basePath.getLast? ≠ some '/'
  rs.filterMap (fun item =>
    let isDirectory := item.resourcetypeTruthy && item.hasCollection
    let name :=
      if isBasePathFile then lastSegment item.href
      else stripTrailSlashOnce (stripLeadingSlashOnce
        (replaceFirstWithEmpty basePath item.href))
    if name = [] then none
    else some
      { path := item.href
        name := name
        isDirectory := isDirectory
        isFile := !isDirectory
        size := jsParseInt10 ((item.getcontentlength).getD (js "0"))
        lastModified := item.getlastmodified })

/-- `WebDAVFS.readDir` (`src/webdav-fs.ts` lines 312-355) applied to an
already-received multistatus response: parse against the normalized path,
then drop entries whose `path` equals the normalized query path and,
unless `includeHidden`, entries whose name starts with a dot. -/
def readDirResult (rs : List RawResponse) (path : JSStr) (includeHidden : Bool) :
    List Stats :=
  let np := normalizePath path
  (parseWebDAVXml rs np).filter (fun f =>
    !(f.path == np) && (includeHidden || !(f.name.head? == some '.')))

/-- C2: evaluation at the failing input.  `readDir('/dir')` on a
multistatus whose first entry is the directory itself listed with the
customary trailing-slash href `/dir/` RETAINS that self-description entry
(under the name `dir`), because the self-exclusion test compares the raw
href against the normalized path `/dir`.  Hidden-name filtering and
server ordering behave as claimed, but the self entry is not excluded. -/
theorem readDir_self_entry_not_excluded :
    readDirResult
      [⟨js "/dir/", true, true, none, none⟩,
       ⟨js "/dir/a.txt", false, false, some (js "5"), none⟩,
       ⟨js "/dir/.hidden", false, false, some (js "1"), none⟩]
      (js "/dir") false =
      [⟨js "/dir/", js "dir", true, false, some 0, none⟩,
       ⟨js "/dir/a.txt", js "a.txt", false, true, some 5, none⟩] := by
  decide

/-- C7 counterexample: a server response carrying `getcontentlength`
`-5` produces a Stats whose size is negative, refuting the claim that
size is never negative for every possible server response. -/
theorem parseWebDAVXml_negative_size_counterexample :
    (parseWebDAVXml [⟨js "/d/f", false, false, some (js "-5"), none⟩]
        (js "/d")).map (fun st => st.size) = [some (-5)] ∧
    ((-5 : Int) < 0) := by
  refine ⟨by decide, by decide⟩

lemma digitsValue_map_nonneg (r : JSStr) (n : Int)
    (h : (digitsValue r).map (fun m => Int.ofNat m) = some n) : 0 ≤ n := by
  unfold digitsValue at h
  by_cases hds : r.takeWhile (fun c => c.isDigit) = []
  · rw [if_pos hds] at h
    exact absurd h (by simp)
  · rw [if_neg hds] at h
    simp only [Option.map_some', Option.some.injEq] at h
    rw [← h]
    exact Int.ofNat_nonneg _

lemma jsParseInt10_nonneg (v : JSStr)
    (hm : (v.dropWhile isJsWhitespace).head? ≠ some '-') :
    ∀ n : Int, jsParseInt10 v = some n → 0 ≤ n := by
  intro n hn
  unfold jsParseInt10 at hn
  cases hv : v.dropWhile isJsWhitespace with
  | nil => rw [hv] at hn; simp [jsParseIntCore] at hn
  | cons c r =>
    rw [hv] at hn hm
    rw [jsParseIntCore] at hn
    have hc : ¬ c = '-' := by
      intro hc
      exact hm (by rw [hc]; rfl)
    rw [if_neg hc] at hn
    by_cases hp : c = '+'
    · rw [if_pos hp] at hn
      exact digitsValue_map_nonneg r n hn
    · rw [if_neg hp] at hn
      exact digitsValue_map_nonneg (c :: r) n hn

/-- C7 (amended): every Stats produced by the multistatus parser satisfies
`isDirectory = !isFile` unconditionally; and its size is nonnegative
provided every present `getcontentlength` value does not start with a
minus sign after optional whitespace (`parseInt` passes a leading minus
through, so a server sending a negative value yields a negative size, as
the counterexample shows; a non-numeric value yields `NaN`, not a
negative number). -/
theorem parseWebDAVXml_stats_invariants (rs : List RawResponse) (basePath : JSStr)
    (hnoneg : ∀ r ∈ rs, ∀ v, r.getcontentlength = some v →
      (v.dropWhile isJsWhitespace).head? ≠ some '-') :
    ∀ st ∈ parseWebDAVXml rs basePath,
      st.isDirectory = !st.isFile ∧ ∀ n : Int, st.size = some n → 0 ≤ n := by
  intro st hst
  unfold parseWebDAVXml at hst
  rw [List.mem_filterMap] at hst
  obtain ⟨r, hr, hfr⟩ := hst
  by_cases hname : (if basePath ≠ [] ∧ basePath.getLast? ≠ some '/' then
      lastSegment r.href
    else stripTrailSlashOnce (stripLeadingSlashOnce
      (replaceFirstWithEmpty basePath r.href))) = []
  · rw [if_pos hname] at hfr
    simp at hfr
  · rw [if_neg hname] at hfr
    simp only [Option.some.injEq] at hfr
    subst hfr
    refine ⟨by simp, ?_⟩
    intro n hn
    simp only at hn
    cases hg : r.getcontentlength with
    | none =>
      rw [hg] at hn
      simp only [Option.getD_none] at hn
      have : jsParseInt10 (js "0") = some 0 := by decide
      rw [this] at hn
      simp only [Option.some.injEq] at hn
      omega
    | some v =>
      rw [hg] at hn
      simp only [Option.getD_some] at hn
      exact jsParseInt10_nonneg v (hnoneg r hr v hg) n hn

/-- Witness for the amended C7 theorem on a concrete two-entry response. -/
theorem parseWebDAVXml_stats_invariants_witness :
    (⟨js "/d/f", js "f", false, true, some 5, none⟩ : Stats) ∈
      parseWebDAVXml
        [⟨js "/d/f", false, false, some (js "5"), none⟩,
         ⟨js "/d/sub", true, true, none, none⟩] (js "/d") ∧
    (⟨js "/d/f", js "f", false, true, some 5, none⟩ : Stats).isDirectory =
      !(⟨js "/d/f", js "f", false, true, some 5, none⟩ : Stats).isFile ∧
    (0 : Int) ≤ 5 := by
  have h := parseWebDAVXml_stats_invariants
    [⟨js "/d/f", false, false, some (js "5"), none⟩,
     ⟨js "/d/sub", true, true, none, none⟩] (js "/d") (by decide)
    ⟨js "/d/f", js "f", false, true, some 5, none⟩ (by decide)
  exact ⟨by decide, h.1, h.2 5 (by decide)⟩

/-! ## `stat` and `exists` on a PROPFIND depth-0 response
(`src/webdav-fs.ts` lines 500-553) -/

/-- `WebDAVFS.stat` applied to the received PROPFIND depth-0 response:
status 404 throws `NotFoundError`; any other status at least 400 goes
through `handleResponseError`; otherwise the body is parsed against the
normalized path, an empty entry list throws `NotFoundError`, and the
first entry is returned. -/
def statFromResponse (status : Nat) (rs : List RawResponse) (path : JSStr) :
    Except WebDAVErr Stats :=
  if status = 404 then .error .notFound
  else if 400 ≤ status then .error (handleResponseError status)
  else
    match parseWebDAVXml rs (normalizePath path) with
    | [] => .error .notFound
    | f :: _ => .ok f

/-- `WebDAVFS.exists`: true when `stat` succeeds, false when it failed
with `NotFoundError`, rethrow any other failure. -/
def existsFromResponse (status : Nat) (rs : List RawResponse) (path : JSStr) :
    Except WebDAVErr Bool :=
  match statFromResponse status rs path with
  | .ok _ => .ok true
  | .error e => if e = .notFound then .ok false else .error e

/-- C6: a 404 response or an empty parsed entry list makes `stat` throw
not-found; `exists` then returns false without raising; `exists`
propagates every non-not-found failure and returns true when `stat`
succeeds. -/
theorem stat_notFound_exists_false (status : Nat) (rs : List RawResponse)
    (path : JSStr) :
    (status = 404 → statFromResponse status rs path = .error .notFound) ∧
    (status < 400 → parseWebDAVXml rs (normalizePath path) = [] →
      statFromResponse status rs path = .error .notFound) ∧
    (statFromResponse status rs path = .error .notFound →
      existsFromResponse status rs path = .ok false) ∧
    (∀ e, statFromResponse status rs path = .error e → e ≠ .notFound →
      existsFromResponse status rs path = .error e) ∧
    (∀ st, statFromResponse status rs path = .ok st →
      existsFromResponse status rs path = .ok true) := by
  refine ⟨?_, ?_, ?_, ?_, ?_⟩
  · intro h
    subst h
    unfold statFromResponse
    rw [if_pos rfl]
  · intro h400 hparse
    unfold statFromResponse
    rw [if_neg (by omega), if_neg (by omega), hparse]
  · intro h
    unfold existsFromResponse
    rw [h]
    rfl
  · intro e h hne
    unfold existsFromResponse
    rw [h]
    simp only [if_neg hne]
  · intro st h
    unfold existsFromResponse
    rw [h]

/-- Witness for C6 at a concrete 404 response. -/
theorem stat_notFound_exists_false_witness :
    statFromResponse 404 [] (js "/x") = .error .notFound ∧
    existsFromResponse 404 [] (js "/x") = .ok false :=
  ⟨(stat_notFound_exists_false 404 [] (js "/x")).1 rfl,
   (stat_notFound_exists_false 404 [] (js "/x")).2.2.1
     ((stat_notFound_exists_false 404 [] (js "/x")).1 rfl)⟩

/-! ## Idealized server state

The composite operations (`writeFile`, `mkdir`, `rm`) run several
requests; their claims are about request ordering, which requires the
out-of-scope HTTP server to be modelled.  The idealized server maps
normalized paths to entries (association list, listing order = list
order), answers PROPFIND depth 0 with the entry or 404, and accepts
PUT, MKCOL and DELETE. -/

/-- What a path resolves to on the server. -/
inductive EntryKind where
  | file
  | dir
  deriving DecidableEq

/-- Server state: association list from normalized paths to entries. -/
abbrev ServerState := List (JSStr × EntryKind)

/-- Resolve a path on the server. -/
def lookupS (st : ServerState) (p : JSStr) : Option EntryKind :=
  (st.find? (fun e => e.1 == p)).map (fun e => e.2)

/-- One HTTP request issued by the adapter. -/
inductive Req where
  | propfind (p : JSStr)
  | mkcol (p : JSStr)
  | put (p : JSStr)
  | delete (p : JSStr)
  deriving DecidableEq

/-- `stat` against the idealized server: one PROPFIND depth 0 on the
normalized path; a present path yields its entry, an absent one the
`NotFoundError` of the 404 branch. -/
def statS (st : ServerState) (p : JSStr) : List Req × Except WebDAVErr EntryKind :=
  ([.propfind (normalizePath p)],
    match lookupS st (normalizePath p) with
    | some k => .ok k
    | none => .error .notFound)

/-- `exists` against the idealized server, mirroring `WebDAVFS.exists`. -/
def existsS (st : ServerState) (p : JSStr) : List Req × Except WebDAVErr Bool :=
  ((statS st p).1,
    match (statS st p).2 with
    | .ok _ => .ok true
    | .error e => if e = .notFound then .ok false else .error e)

/-- Idealized PUT effect: the path now resolves to a file. -/
def putS (st : ServerState) (p : JSStr) : ServerState :=
  (p, EntryKind.file) :: st.filter (fun e => !(e.1 == p))

/-- `WebDAVFS.writeFile` (`src/webdav-fs.ts` lines 227-271) against the
idealized server.  With `overwrite: false` (and only then) the existence
probe runs first — one PROPFIND via `exists`/`stat` — and an existing
path aborts with `FileExistsError` before the PUT; otherwise the PUT on
the normalized path is issued directly. -/
def writeFileS (st : ServerState) (p : JSStr) (overwrite : Option Bool) :
    List Req × Except WebDAVErr ServerState :=
  let np := normalizePath p
  if overwrite = some false then
    match (existsS st np).2 with
    | .error e => ((existsS st np).1, .error e)
    | .ok true => ((existsS st np).1, .error .fileExists)
    | .ok false => ((existsS st np).1 ++ [.put np], .ok (putS st np))
  else ([.put np], .ok (putS st np))

/-- C3: when the path exists, `writeFile` with `overwrite: false` throws
`FileExistsError`, the request trace is exactly the one existence probe
(PROPFIND), and in particular no PUT is issued. -/
theorem writeFile_no_overwrite_existing (st : ServerState) (p : JSStr)
    (h : lookupS st (normalizePath p) ≠ none) :
    writeFileS st p (some false) =
      ([.propfind (normalizePath p)], .error .fileExists) := by
  unfold writeFileS existsS statS
  dsimp only
  rw [normalizePath_fixed _ (normalizePath_isNormalized p)]
  cases hk : lookupS st (normalizePath p) with
  | none => exact absurd hk h
  | some k => rfl

/-- Witness for C3 on a one-file server. -/
theorem writeFile_no_overwrite_existing_witness :
    writeFileS [(js "/a", EntryKind.file)] (js "/a") (some false) =
      ([.propfind (normalizePath (js "/a"))], .error .fileExists) :=
  writeFile_no_overwrite_existing [(js "/a", EntryKind.file)] (js "/a") (by decide)

/-! ## `getDirFromPath` (`src/utils.ts` lines 451-457) and `mkdir`
(`src/webdav-fs.ts` lines 363-411) -/

/-- Split a string at its LAST slash (`lastIndexOf('/')`), returning the
part before it (`slice(0, idx)`) and the part after it; `none` when the
string has no slash (`lastIndexOf` returning -1). -/
def breakAtLastSlash : JSStr → Option (JSStr × JSStr)
  | [] => none
  | c :: t =>
    match breakAtLastSlash t with
    | some (a, b) => some (c :: a, b)
    | none => if c = '/' then some ([], t) else none

/-- `getDirFromPath`: the root for the empty or root path; otherwise strip
all trailing slashes, cut before the last slash, and fall back to the root
when the last slash is at position 0 or absent (`idx <= 0`) or the slice
is empty (`|| '/'`). -/
def getDirFromPath (p : JSStr) : JSStr :=
  if p = [] ∨ p = js "/" then js "/"
  else
    match breakAtLastSlash (stripTrailingSlashes p) with
    | none => js "/"
    | some ([], _) => js "/"
    | some (a, _) => a

lemma breakAtLastSlash_isSome_of_mem (s : JSStr) (h : '/' ∈ s) :
    ∃ a b, breakAtLastSlash s = some (a, b) := by
  induction s with
  | nil => simp at h
  | cons d u ih =>
    rw [breakAtLastSlash]
    cases hu : breakAtLastSlash u with
    | some ab =>
      exact ⟨d :: ab.1, ab.2, rfl⟩
    | none =>
      rcases List.mem_cons.mp h with hd | hd
      · refine ⟨[], u, ?_⟩
        show (if d = '/' then some (([] : JSStr), u) else none) = some ([], u)
        rw [if_pos hd.symm]
      · obtain ⟨a3, b3, h3⟩ := ih hd
        rw [h3] at hu
        exact absurd hu (by simp)

lemma breakAtLastSlash_some (s a b : JSStr) (h : breakAtLastSlash s = some (a, b)) :
    s = a ++ '/' :: b ∧ '/' ∉ b := by
  induction s generalizing a b with
  | nil => exact absurd h (by rw [breakAtLastSlash]; simp)
  | cons c t ih =>
    rw [breakAtLastSlash] at h
    cases hr : breakAtLastSlash t with
    | some ab =>
      obtain ⟨a2, b2⟩ := ab
      rw [hr] at h
      simp only [Option.some.injEq, Prod.mk.injEq] at h
      obtain ⟨ha, hb⟩ := h
      obtain ⟨ht, hnb⟩ := ih a2 b2 hr
      subst hb
      rw [← ha]
      exact ⟨by rw [ht]; rfl, hnb⟩
    | none =>
      rw [hr] at h
      by_cases hc : c = '/'
      · rw [if_pos hc] at h
        simp only [Option.some.injEq, Prod.mk.injEq] at h
        obtain ⟨ha, hb⟩ := h
        subst hb
        rw [← ha, hc]
        refine ⟨rfl, ?_⟩
        intro hmem
        obtain ⟨a2, b2, hab⟩ := breakAtLastSlash_isSome_of_mem t hmem
        rw [hab] at hr
        exact absurd hr (by simp)
      · rw [if_neg hc] at h
        exact absurd h (by simp)

lemma breakAtLastSlash_none (s : JSStr) (h : breakAtLastSlash s = none) :
    '/' ∉ s := by
  intro hmem
  obtain ⟨a, b, hab⟩ := breakAtLastSlash_isSome_of_mem s hmem
  rw [hab] at h
  exact absurd h (by simp)

lemma noDoubleSlash_append_left (x y : JSStr)
    (h : noDoubleSlash (x ++ y) = true) : noDoubleSlash x = true := by
  induction x with
  | nil => rfl
  | cons c t ih =>
    match t, h with
    | [], _ => rfl
    | d :: t, h =>
      have h2 : noDoubleSlash (c :: d :: (t ++ y)) = true := by
        simpa using h
      rw [noDoubleSlash, Bool.and_eq_true] at h2
      rw [noDoubleSlash, Bool.and_eq_true]
      exact ⟨h2.1, ih (by simpa using h2.2)⟩

lemma noDoubleSlash_before_slash (x y : JSStr)
    (h : noDoubleSlash (x ++ '/' :: y) = true) : x.getLast? ≠ some '/' := by
  induction x with
  | nil => simp
  | cons c t ih =>
    match t, h with
    | [], h =>
      intro hc
      have hc2 : c = '/' := by
        have hg : ([c] : JSStr).getLast? = some c := rfl
        rw [hg] at hc
        exact Option.some_injective _ hc
      have h2 : noDoubleSlash (c :: '/' :: y) = true := by simpa using h
      rw [noDoubleSlash, Bool.and_eq_true, Bool.not_eq_true'] at h2
      rw [hc2] at h2
      simp at h2
    | d :: t, h =>
      rw [List.getLast?_cons_cons]
      refine ih ?_
      have h2 : noDoubleSlash (c :: d :: (t ++ '/' :: y)) = true := by simpa using h
      rw [noDoubleSlash, Bool.and_eq_true] at h2
      exact h2.2


/-- `stripTrailingSlashes` leaves a string alone when it does not end in
a slash. -/
lemma stripTrailingSlashes_of_no_trail (s : JSStr) (h : s.getLast? ≠ some '/') :
    stripTrailingSlashes s = s := by
  unfold stripTrailingSlashes
  have hdw : s.reverse.dropWhile (fun c => c = '/') = s.reverse := by
    cases hr : s.reverse with
    | nil => rfl
    | cons c t =>
      have hc : ¬ (c = '/') := by
        intro hc
        apply h
        rw [← List.head?_reverse, hr, hc]
        rfl
      rw [List.dropWhile_cons]
      simp [hc]
  rw [hdw, List.reverse_reverse]

/-- For a normalized non-root path, `getDirFromPath` yields a normalized,
strictly shorter parent. -/
lemma getDirFromPath_normalized (p : JSStr) (hn : IsNormalizedPath p)
    (hroot : p ≠ js "/") :
    IsNormalizedPath (getDirFromPath p) ∧ (getDirFromPath p).length < p.length := by
  obtain ⟨hhead, hnd, hlast⟩ := hn
  have hl : p.getLast? ≠ some '/' := by
    rcases hlast with h | h
    · exact absurd h hroot
    · exact h
  have hpne : p ≠ [] := by
    intro h
    rw [h] at hhead
    simp at hhead
  have hmem : '/' ∈ p := by
    cases p with
    | nil => exact absurd rfl hpne
    | cons c t =>
      have : c = '/' := by simpa using hhead
      rw [this]
      exact List.mem_cons_self _ _
  obtain ⟨a, b, hab⟩ := breakAtLastSlash_isSome_of_mem p hmem
  obtain ⟨hsplit, hnb⟩ := breakAtLastSlash_some p a b hab
  have heq : getDirFromPath p = if a = [] then js "/" else a := by
    unfold getDirFromPath
    rw [if_neg (by push_neg; exact ⟨hpne, hroot⟩)]
    rw [stripTrailingSlashes_of_no_trail p hl, hab]
    cases a with
    | nil => rfl
    | cons c t => rfl
  rw [heq]
  cases a with
  | nil =>
    rw [if_pos rfl]
    refine ⟨by decide, ?_⟩
    have hb : b ≠ [] := by
      intro h
      rw [h] at hsplit
      exact hroot (by rw [hsplit]; rfl)
    rw [hsplit]
    cases b with
    | nil => exact absurd rfl hb
    | cons x y => simp [js]
  | cons c a2 =>
    rw [if_neg (by simp)]
    have hc : c = '/' := by
      rw [hsplit] at hhead
      simpa using hhead
    refine ⟨⟨by simpa using hc, ?_, Or.inr ?_⟩, ?_⟩
    · exact noDoubleSlash_append_left (c :: a2) ('/' :: b) (by rw [← hsplit]; exact hnd)
    · exact noDoubleSlash_before_slash (c :: a2) b (by rw [← hsplit]; exact hnd)
    · rw [hsplit]
      simp only [List.length_append, List.length_cons]
      omega

/-- The chain of ancestor directories produced by iterating
`getDirFromPath`, outermost ancestor first, excluding the root and the
path itself; the fuel mirrors the fuel of `mkdirFuel` below. -/
def ancestorChain : Nat → JSStr → List JSStr
  | 0, _ => []
  | f + 1, p =>
    let par := getDirFromPath p
    if par = js "/" ∨ par = p then []
    else ancestorChain f par ++ [par]

/-- The MKCOL requests of a trace, in order. -/
def mkcols (tr : List Req) : List JSStr :=
  tr.filterMap (fun r =>
    match r with
    | .mkcol p => some p
    | _ => none)

/-- A server state is ancestor-closed when the parent directory of every
present entry is the root or itself present. -/
def AncestorClosed (st : ServerState) : Prop :=
  ∀ e ∈ st, getDirFromPath e.1 = js "/" ∨ (lookupS st (getDirFromPath e.1)).isSome

instance : DecidablePred AncestorClosed := fun st =>
  List.decidableBAll _ st

lemma lookupS_mem (st : ServerState) (q : JSStr) (k : EntryKind)
    (h : lookupS st q = some k) : ∃ e ∈ st, e.1 = q ∧ e.2 = k := by
  unfold lookupS at h
  cases hf : st.find? (fun e => e.1 == q) with
  | none => rw [hf] at h; simp at h
  | some e =>
    rw [hf] at h
    refine ⟨e, List.mem_of_find?_eq_some hf, ?_, by simpa using h⟩
    have := List.find?_some hf
    simpa using this

/-- In an ancestor-closed state, every ancestor in the chain of a present
path is itself present. -/
lemma ancestorChain_present (f : Nat) (st : ServerState) (hwf : AncestorClosed st) :
    ∀ p, IsNormalizedPath p → (lookupS st p).isSome →
      ∀ a ∈ ancestorChain f p, (lookupS st a).isSome := by
  induction f with
  | zero =>
    intro p _ _ a ha
    simp [ancestorChain] at ha
  | succ f ih =>
    intro p hnorm hp a ha
    rw [ancestorChain] at ha
    by_cases hguard : getDirFromPath p = js "/" ∨ getDirFromPath p = p
    · rw [if_pos hguard] at ha
      simp at ha
    · rw [if_neg hguard] at ha
      push_neg at hguard
      have hproot : p ≠ js "/" := by
        intro h
        exact hguard.1 (by rw [h]; rfl)
      obtain ⟨k, hk⟩ := Option.isSome_iff_exists.mp hp
      obtain ⟨e, hememb, he1, he2⟩ := lookupS_mem st p k hk
      have hpar : (lookupS st (getDirFromPath p)).isSome := by
        rcases hwf e hememb with hof | hof
        · rw [he1] at hof
          exact absurd hof hguard.1
        · rw [he1] at hof
          exact hof
      have hparnorm := getDirFromPath_normalized p hnorm hproot
      rcases List.mem_append.mp ha with ha2 | ha2
      · exact ih (getDirFromPath p) hparnorm.1 hpar a ha2
      · have : a = getDirFromPath p := by simpa using ha2
        rw [this]
        exact hpar

/-- `WebDAVFS.mkdir` (`src/webdav-fs.ts` lines 363-411) against the
idealized server, with recursion fuel (the parent recursion strictly
shortens the path, so any fuel above the path length behaves like the
original; fuel exhaustion returns a marker error that the theorems rule
out).  The probe `stat` is answered from the state; a path that already
is a directory returns at once, a non-directory raises
`FileExistsError`.  When `options.recursive !== false` a missing parent
is stat-ed and, when absent, created by a recursive call before the
MKCOL of this path; the idealized MKCOL succeeds and inserts the
directory. -/
def mkdirFuel : Nat → ServerState → JSStr → Option Bool →
    List Req × Except WebDAVErr ServerState
  | 0, _, _, _ => ([], .error (.generic none))
  | fuel + 1, st, path, recursive =>
    let np := normalizePath path
    match lookupS st np with
    | some EntryKind.dir => ([.propfind np], .ok st)
    | some EntryKind.file => ([.propfind np], .error .fileExists)
    | none =>
      let parentStep : List Req × Except WebDAVErr ServerState :=
        if recursive ≠ some false then
          let parentDir := getDirFromPath np
          if parentDir ≠ js "/" ∧ parentDir ≠ np then
            match lookupS st (normalizePath parentDir) with
            | some _ => ([.propfind (normalizePath parentDir)], .ok st)
            | none =>
              ([.propfind (normalizePath parentDir)] ++
                 (mkdirFuel fuel st parentDir recursive).1,
               (mkdirFuel fuel st parentDir recursive).2)
          else ([], .ok st)
        else ([], .ok st)
      match parentStep.2 with
      | .error e => ([.propfind np] ++ parentStep.1, .error e)
      | .ok st1 =>
        ([.propfind np] ++ parentStep.1 ++ [.mkcol np],
         .ok ((np, EntryKind.dir) :: st1))

lemma mkcols_append (x y : List Req) : mkcols (x ++ y) = mkcols x ++ mkcols y :=
  List.filterMap_append _ _ _

lemma mkcols_propfind_nil (p : JSStr) : mkcols [Req.propfind p] = [] := rfl

lemma mkcols_mkcol_single (p : JSStr) : mkcols [Req.mkcol p] = [p] := rfl

lemma ancestorChain_succ (f : Nat) (p : JSStr) :
    ancestorChain (f + 1) p =
      if getDirFromPath p = js "/" ∨ getDirFromPath p = p then []
      else ancestorChain f (getDirFromPath p) ++ [getDirFromPath p] := rfl

/-- C4: on an ancestor-closed server, `mkdir` of an existing directory is
a no-op issuing no MKCOL (only the one stat probe); of an existing
non-directory it raises `FileExistsError`; and of a missing path with
`recursive` enabled it issues MKCOL for exactly the missing ancestors,
outermost first, followed by the path itself, and succeeds. -/
theorem mkdir_spec : ∀ (fuel : Nat) (st : ServerState) (p : JSStr) (o : Option Bool),
    AncestorClosed st → IsNormalizedPath p → p.length < fuel →
    ((lookupS st p = some EntryKind.dir →
       mkdirFuel fuel st p o = ([.propfind p], .ok st)) ∧
     (lookupS st p = some EntryKind.file →
       mkdirFuel fuel st p o = ([.propfind p], .error .fileExists)) ∧
     (lookupS st p = none → o ≠ some false →
       mkcols (mkdirFuel fuel st p o).1 =
         (ancestorChain fuel p).filter (fun a => (lookupS st a).isNone) ++ [p] ∧
       ∃ st2, (mkdirFuel fuel st p o).2 = .ok st2)) := by
  intro fuel
  induction fuel with
  | zero =>
    intro st p o _ _ hfuel
    omega
  | succ f ih =>
    intro st p o hwf hnorm hfuel
    have hnp : normalizePath p = p := normalizePath_fixed p hnorm
    refine ⟨?_, ?_, ?_⟩
    · intro hk
      rw [mkdirFuel, hnp, hk]
    · intro hk
      rw [mkdirFuel, hnp, hk]
    · intro hk hrec
      rw [mkdirFuel, hnp, hk, if_pos hrec]
      by_cases hg : getDirFromPath p ≠ js "/" ∧ getDirFromPath p ≠ p
      · rw [if_pos hg]
        have hproot : p ≠ js "/" := fun h => hg.2 (by rw [h]; rfl)
        obtain ⟨hparnorm, hparlen⟩ := getDirFromPath_normalized p hnorm hproot
        have hpn := normalizePath_fixed _ hparnorm
        rw [hpn]
        have hchain : ancestorChain (f + 1) p =
            ancestorChain f (getDirFromPath p) ++ [getDirFromPath p] := by
          rw [ancestorChain_succ, if_neg (by push_neg; exact hg)]
        cases hpk : lookupS st (getDirFromPath p) with
        | some k =>
          refine ⟨?_, ⟨(p, EntryKind.dir) :: st, rfl⟩⟩
          rw [hchain, List.filter_append]
          have hanc : ∀ a ∈ ancestorChain f (getDirFromPath p),
              (lookupS st a).isSome :=
            ancestorChain_present f st hwf (getDirFromPath p) hparnorm
              (by rw [hpk]; rfl)
          have h1 : (ancestorChain f (getDirFromPath p)).filter
              (fun a => (lookupS st a).isNone) = [] := by
            rw [List.filter_eq_nil_iff]
            intro a ha
            have hs := hanc a ha
            simp only [Option.isNone_iff_eq_none]
            intro hcontra
            rw [hcontra] at hs
            simp at hs
          have h2 : ([getDirFromPath p] : List JSStr).filter
              (fun a => (lookupS st a).isNone) = [] := by
            simp [List.filter_cons, hpk]
          rw [h1, h2]
          rfl
        | none =>
          have hihfuel : (getDirFromPath p).length < f := by omega
          obtain ⟨htr, st2, hst2⟩ :=
            (ih st (getDirFromPath p) o hwf hparnorm hihfuel).2.2 hpk hrec
          rw [hst2]
          refine ⟨?_, ⟨(p, EntryKind.dir) :: st2, rfl⟩⟩
          rw [hchain, List.filter_append]
          have h2 : ([getDirFromPath p] : List JSStr).filter
              (fun a => (lookupS st a).isNone) = [getDirFromPath p] := by
            simp [List.filter_cons, hpk]
          rw [h2]
          show mkcols ([Req.propfind p] ++
            ([Req.propfind (getDirFromPath p)] ++
              (mkdirFuel f st (getDirFromPath p) o).1) ++ [Req.mkcol p]) = _
          rw [mkcols_append, mkcols_append, mkcols_append, htr,
            mkcols_propfind_nil, mkcols_propfind_nil, mkcols_mkcol_single]
          simp
      · rw [if_neg hg]
        have hguard : getDirFromPath p = js "/" ∨ getDirFromPath p = p := by
          by_cases h1 : getDirFromPath p = js "/"
          · exact Or.inl h1
          · push_neg at hg
            exact Or.inr (hg h1)
        have hchain : ancestorChain (f + 1) p = [] := by
          rw [ancestorChain_succ, if_pos hguard]
        refine ⟨?_, ⟨(p, EntryKind.dir) :: st, rfl⟩⟩
        rw [hchain]
        rfl

/-- Witness for C4: `/a` exists, `mkdir('/a/b/c')` with the default
options creates `/a/b` then `/a/b/c` and succeeds. -/
theorem mkdir_spec_witness :
    mkcols (mkdirFuel 10 [(js "/a", EntryKind.dir)] (js "/a/b/c") none).1 =
      (ancestorChain 10 (js "/a/b/c")).filter
        (fun a => (lookupS [(js "/a", EntryKind.dir)] a).isNone) ++ [js "/a/b/c"] ∧
    ∃ st2,
      (mkdirFuel 10 [(js "/a", EntryKind.dir)] (js "/a/b/c") none).2 = .ok st2 :=
  (mkdir_spec 10 [(js "/a", EntryKind.dir)] (js "/a/b/c") none (by decide)
    (by decide) (by decide)).2.2 (by decide) (by decide)

lemma mkdirFuel_rec_eq : ∀ (fuel : Nat) (st : ServerState) (p : JSStr)
    (o : Option Bool), o ≠ some false →
    mkdirFuel fuel st p o = mkdirFuel fuel st p (some true) := by
  intro fuel
  induction fuel with
  | zero => intro st p o h; rfl
  | succ f ih =>
    intro st p o h
    rw [mkdirFuel, mkdirFuel]
    cases lookupS st (normalizePath p) with
    | some k => cases k <;> rfl
    | none =>
      rw [if_pos h, if_pos (show (some true : Option Bool) ≠ some false by decide)]
      by_cases hgd : getDirFromPath (normalizePath p) ≠ js "/" ∧
          getDirFromPath (normalizePath p) ≠ normalizePath p
      · rw [if_pos hgd, if_pos hgd]
        cases lookupS st (normalizePath (getDirFromPath (normalizePath p))) with
        | some k => rfl
        | none => rw [ih st (getDirFromPath (normalizePath p)) o h]
      · rw [if_neg hgd, if_neg hgd]

/-- C10: `mkdir` behaves identically for every value of the `recursive`
option other than the literal `false` — the code tests
`options.recursive !== false`, so an omitted option still creates missing
parents — and with `recursive: false` on a missing path the parent is
neither probed nor created: the trace is the stat probe and the MKCOL of
the path itself, nothing else. -/
theorem mkdir_recursive_option (fuel : Nat) (st : ServerState) (p : JSStr)
    (o : Option Bool) :
    (o ≠ some false → mkdirFuel fuel st p o = mkdirFuel fuel st p (some true)) ∧
    (lookupS st (normalizePath p) = none →
      mkdirFuel (fuel + 1) st p (some false) =
        ([.propfind (normalizePath p), .mkcol (normalizePath p)],
          .ok ((normalizePath p, EntryKind.dir) :: st))) := by
  refine ⟨fun h => mkdirFuel_rec_eq fuel st p o h, fun hk => ?_⟩
  rw [mkdirFuel, hk, if_neg (by simp)]
  rfl

/-- Witness for C10 on the empty server with path `/a/b`. -/
theorem mkdir_recursive_option_witness :
    mkdirFuel 5 [] (js "/a/b") none = mkdirFuel 5 [] (js "/a/b") (some true) ∧
    mkdirFuel 5 [] (js "/a/b") (some false) =
      ([.propfind (normalizePath (js "/a/b")), .mkcol (normalizePath (js "/a/b"))],
        .ok ((normalizePath (js "/a/b"), EntryKind.dir) :: [])) :=
  ⟨(mkdir_recursive_option 5 [] (js "/a/b") none).1 (by decide),
   (mkdir_recursive_option 4 [] (js "/a/b") none).2 (by decide)⟩

/-! ## `rm` (`src/webdav-fs.ts` lines 418-450) and `rmdir` (456-465)

`rm` stats the path, and for a directory lists it with `readDir` (default
options, so hidden names are filtered) and, when `recursive`, removes each
listed child with a recursive `rm` in listing order before deleting the
directory itself; without `recursive` a non-empty listing raises a plain
`WebDAVError`.  The idealized server lists as children of `p` exactly the
present entries whose path extends `p + '/'` by one slash-free name
segment (collection hrefs without trailing slash, i.e. the href shape on
which `readDir` works as intended), and its DELETE removes the path with
its whole subtree. -/

/-- `path.replace(/\/$/, '') + '/'`, the prefix under which `rm` builds
child paths. -/
def childBase (p : JSStr) : JSStr := stripTrailSlashOnce p ++ [ '/' ]

/-- The child path `path.replace(/\/$/, '') + '/' + name` built by `rm`. -/
def childPath (p n : JSStr) : JSStr := childBase p ++ n

/-- `q` lies strictly below `p`. -/
def isStrictDesc (p q : JSStr) : Bool := (childBase p).isPrefixOf q

/-- `q` is `p` itself or lies strictly below it (the subtree a WebDAV
DELETE on `p` removes). -/
def isSelfOrDesc (p q : JSStr) : Bool := q == p || isStrictDesc p q

/-- `q` is an immediate child path of `p`: it extends the child base by a
non-empty slash-free name. -/
def isImmChild (p q : JSStr) : Bool :=
  isStrictDesc p q && !(q.drop (childBase p).length).isEmpty &&
    !((q.drop (childBase p).length).contains '/')

/-- The child name of `q` below `p`, when `q` is an immediate child. -/
def childNameOf (p q : JSStr) : Option JSStr :=
  if isImmChild p q then some (q.drop (childBase p).length) else none

/-- What `readDir(path)` with default options returns on the idealized
server: the immediate children present in the state, in state (= server
listing) order, minus names starting with a dot (`includeHidden` defaults
to off). -/
def readDirS (st : ServerState) (p : JSStr) : List (JSStr × EntryKind) :=
  st.filterMap (fun e =>
    match childNameOf (normalizePath p) e.1 with
    | some n => if n.head? = some '.' then none else some (n, e.2)
    | none => none)

/-- Idealized DELETE effect: the path and its whole subtree disappear. -/
def deleteS (st : ServerState) (p : JSStr) : ServerState :=
  st.filter (fun e => !(isSelfOrDesc (normalizePath p) e.1))

/-- The DELETE requests of a trace, in order. -/
def deletes (tr : List Req) : List JSStr :=
  tr.filterMap (fun r =>
    match r with
    | .delete p => some p
    | _ => none)

/-- `WebDAVFS.rm` against the idealized server, with recursion fuel (the
recursion descends into strictly smaller subtrees; any fuel above the
number of entries below the path behaves like the original, and fuel
exhaustion returns a marker error the theorems rule out).  The stat probe
is one PROPFIND; a missing path throws `NotFoundError`, swallowed when
`force`.  For a directory, `readDir` issues a second PROPFIND; with
`recursive` each listed child is removed by a recursive `rm` (with
`recursive: true` and the same `force`) in listing order, aborting on the
first failure, and then `_delete` issues the DELETE of the directory;
without `recursive` a non-empty listing raises a plain `WebDAVError`
(`Directory not empty`).  A file is deleted directly. -/
def rmFuel : Nat → ServerState → JSStr → Bool → Bool →
    List Req × Except WebDAVErr ServerState
  | 0, _, _, _, _ => ([], Except.error (WebDAVErr.generic none))
  | fuel + 1, st, path, recursive, force =>
    let np := normalizePath path
    match lookupS st np with
    | none => ([Req.propfind np], if force then Except.ok st else Except.error WebDAVErr.notFound)
    | some EntryKind.dir =>
      if recursive then
        match ((readDirS st path).foldl
          (fun acc c =>
            match acc.2 with
            | Except.error _ => acc
            | Except.ok st2 =>
              (acc.1 ++ (rmFuel fuel st2 (childPath path c.1) true force).1,
                (rmFuel fuel st2 (childPath path c.1) true force).2))
          (([] : List Req), (Except.ok st : Except WebDAVErr ServerState))).2 with
        | Except.error e =>
          ([Req.propfind np, Req.propfind np] ++
            ((readDirS st path).foldl
              (fun acc c =>
                match acc.2 with
                | Except.error _ => acc
                | Except.ok st2 =>
                  (acc.1 ++ (rmFuel fuel st2 (childPath path c.1) true force).1,
                    (rmFuel fuel st2 (childPath path c.1) true force).2))
              (([] : List Req), (Except.ok st : Except WebDAVErr ServerState))).1,
            Except.error e)
        | Except.ok st2 =>
          ([Req.propfind np, Req.propfind np] ++
            ((readDirS st path).foldl
              (fun acc c =>
                match acc.2 with
                | Except.error _ => acc
                | Except.ok st2 =>
                  (acc.1 ++ (rmFuel fuel st2 (childPath path c.1) true force).1,
                    (rmFuel fuel st2 (childPath path c.1) true force).2))
              (([] : List Req), (Except.ok st : Except WebDAVErr ServerState))).1 ++
            [Req.delete np],
            Except.ok (deleteS st2 path))
      else
        if readDirS st path = [] then
          ([Req.propfind np, Req.propfind np, Req.delete np], Except.ok (deleteS st path))
        else ([Req.propfind np, Req.propfind np], Except.error (WebDAVErr.generic none))
    | some EntryKind.file =>
      ([Req.propfind np, Req.delete np], Except.ok (deleteS st path))

lemma mem_of_getLast?_eq (l : JSStr) (a : Char) (h : l.getLast? = some a) :
    a ∈ l := by
  have hx : a ∈ l.getLast? := by rw [h]; rfl
  obtain ⟨hne, heq⟩ := List.mem_getLast?_eq_getLast hx
  rw [heq]
  exact List.getLast_mem hne

lemma mem_of_head?_eq (l : JSStr) (a : Char) (h : l.head? = some a) : a ∈ l := by
  cases l with
  | nil => simp at h
  | cons c t =>
    have : a = c := by simpa using h.symm
    rw [this]
    exact List.mem_cons_self _ _

lemma noDoubleSlash_of_no_slash (n : JSStr) (h : '/' ∉ n) :
    noDoubleSlash n = true := by
  induction n with
  | nil => rfl
  | cons c t ih =>
    cases t with
    | nil => rfl
    | cons d t2 =>
      rw [noDoubleSlash, Bool.and_eq_true]
      constructor
      · have hd : d ≠ '/' := by
          intro hc
          exact h (by rw [← hc] at *; exact List.mem_cons_of_mem _ (List.mem_cons_self _ _))
        simp [hd]
      · exact ih (fun hm => h (List.mem_cons_of_mem _ hm))

lemma noDoubleSlash_append (b n : JSStr) (hb : noDoubleSlash b = true)
    (hn : noDoubleSlash n = true)
    (hj : ¬(b.getLast? = some '/' ∧ n.head? = some '/')) :
    noDoubleSlash (b ++ n) = true := by
  induction b with
  | nil => exact hn
  | cons x t ih =>
    cases t with
    | nil =>
      cases n with
      | nil => rfl
      | cons m r =>
        show noDoubleSlash (x :: m :: r) = true
        rw [noDoubleSlash, Bool.and_eq_true]
        refine ⟨?_, hn⟩
        by_cases hx : x = '/'
        · by_cases hm : m = '/'
          · exact absurd ⟨by rw [hx]; rfl, by rw [hm]; rfl⟩ hj
          · simp [hm]
        · simp [hx]
    | cons y t2 =>
      show noDoubleSlash (x :: y :: (t2 ++ n)) = true
      rw [noDoubleSlash, Bool.and_eq_true] at hb
      rw [noDoubleSlash, Bool.and_eq_true]
      refine ⟨hb.1, ?_⟩
      refine ih hb.2 ?_
      intro hc
      apply hj
      refine ⟨?_, hc.2⟩
      rw [List.getLast?_cons_cons]
      exact hc.1

lemma head?_append_left (b n : JSStr) (hb : b ≠ []) :
    (b ++ n).head? = b.head? := by
  cases b with
  | nil => exact absurd rfl hb
  | cons c t => rfl

lemma childBase_facts (p : JSStr) (hp : IsNormalizedPath p) :
    noDoubleSlash (childBase p) = true ∧ (childBase p).head? = some '/' ∧
      (childBase p).getLast? = some '/' ∧ childBase p ≠ [] := by
  by_cases hroot : p = js "/"
  · rw [hroot]
    exact ⟨by decide, by decide, by decide, by decide⟩
  · obtain ⟨hh, hnd, hl⟩ := hp
    have hl2 : p.getLast? ≠ some '/' := by
      rcases hl with h | h
      · exact absurd h hroot
      · exact h
    have hpne : p ≠ [] := by
      intro h0
      rw [h0] at hh
      simp at hh
    have hcb : childBase p = p ++ [ '/' ] := by
      unfold childBase stripTrailSlashOnce
      rw [if_neg hl2]
    rw [hcb]
    refine ⟨?_, ?_, ?_, by simp⟩
    · exact noDoubleSlash_append p [ '/' ] hnd rfl (fun hc => hl2 hc.1)
    · rw [head?_append_left _ _ hpne]
      exact hh
    · rw [List.getLast?_append_of_ne_nil _ (by simp)]
      rfl

lemma no_slash_getLast (n : JSStr) (h : '/' ∉ n) : n.getLast? ≠ some '/' :=
  fun hc => h (mem_of_getLast?_eq n '/' hc)

lemma no_slash_head (n : JSStr) (h : '/' ∉ n) : n.head? ≠ some '/' :=
  fun hc => h (mem_of_head?_eq n '/' hc)

lemma childPath_normalized (p n : JSStr) (hp : IsNormalizedPath p)
    (hn1 : n ≠ []) (hn2 : '/' ∉ n) : IsNormalizedPath (childPath p n) := by
  obtain ⟨hcbnd, hcbh, hcbl, hcbne⟩ := childBase_facts p hp
  unfold childPath
  refine ⟨?_, ?_, Or.inr ?_⟩
  · rw [head?_append_left _ _ hcbne]
    exact hcbh
  · exact noDoubleSlash_append _ _ hcbnd (noDoubleSlash_of_no_slash n hn2)
      (fun hc => no_slash_head n hn2 hc.2)
  · rw [List.getLast?_append_of_ne_nil _ hn1]
    exact no_slash_getLast n hn2

lemma childBase_childPath (p n : JSStr) (hn1 : n ≠ []) (hn2 : '/' ∉ n) :
    childBase (childPath p n) = childPath p n ++ [ '/' ] := by
  unfold childBase stripTrailSlashOnce
  rw [if_neg]
  unfold childPath
  rw [List.getLast?_append_of_ne_nil _ hn1]
  exact no_slash_getLast n hn2

lemma isStrictDesc_iff (p q : JSStr) :
    isStrictDesc p q = true ↔ ∃ t, q = childBase p ++ t := by
  unfold isStrictDesc
  rw [List.isPrefixOf_iff_prefix]
  constructor
  · rintro ⟨t, ht⟩
    exact ⟨t, ht.symm⟩
  · rintro ⟨t, ht⟩
    exact ⟨t, ht.symm⟩

lemma isStrictDesc_childPath (p n : JSStr) :
    isStrictDesc p (childPath p n) = true := by
  rw [isStrictDesc_iff]
  exact ⟨n, rfl⟩

lemma isStrictDesc_trans_child (p n q : JSStr) (hn1 : n ≠ []) (hn2 : '/' ∉ n)
    (h : isStrictDesc (childPath p n) q = true) : isStrictDesc p q = true := by
  rw [isStrictDesc_iff] at h ⊢
  obtain ⟨t, ht⟩ := h
  rw [childBase_childPath p n hn1 hn2] at ht
  refine ⟨n ++ '/' :: t, ?_⟩
  rw [ht]
  unfold childPath
  simp

lemma isSelfOrDesc_child_to_strict (p n q : JSStr) (hn1 : n ≠ []) (hn2 : '/' ∉ n)
    (h : isSelfOrDesc (childPath p n) q = true) : isStrictDesc p q = true := by
  unfold isSelfOrDesc at h
  rw [Bool.or_eq_true] at h
  rcases h with h | h
  · have hq : q = childPath p n := by simpa using h
    rw [hq]
    exact isStrictDesc_childPath p n
  · exact isStrictDesc_trans_child p n q hn1 hn2 h

lemma not_immChild_of_strictDesc_child (p n q : JSStr) (hn1 : n ≠ []) (hn2 : '/' ∉ n)
    (h : isStrictDesc (childPath p n) q = true) : isImmChild p q = false := by
  rw [isStrictDesc_iff] at h
  obtain ⟨t, ht⟩ := h
  rw [childBase_childPath p n hn1 hn2] at ht
  have hq : q = childBase p ++ (n ++ '/' :: t) := by
    rw [ht]
    unfold childPath
    simp
  unfold isImmChild
  have hdrop : q.drop (childBase p).length = n ++ '/' :: t := by
    rw [hq, List.drop_left]
  rw [hdrop]
  have hcont : (n ++ '/' :: t).contains '/' = true := by
    rw [List.contains_eq_any_beq, List.any_eq_true]
    exact ⟨'/', List.mem_append_right _ (List.mem_cons_self _ _), by simp⟩
  rw [hcont]
  simp

lemma isImmChild_childPath (p n : JSStr) (hn1 : n ≠ []) (hn2 : '/' ∉ n) :
    isImmChild p (childPath p n) = true := by
  unfold isImmChild
  have hdrop : (childPath p n).drop (childBase p).length = n := by
    unfold childPath
    rw [List.drop_left]
  rw [hdrop, Bool.and_eq_true, Bool.and_eq_true]
  refine ⟨⟨isStrictDesc_childPath p n, ?_⟩, ?_⟩
  · cases n with
    | nil => exact absurd rfl hn1
    | cons _ _ => rfl
  · rw [Bool.not_eq_true', List.contains_eq_any_beq, List.any_eq_false]
    intro x hx
    simp only [beq_iff_eq]
    intro hc
    rw [← hc] at hx
    exact hn2 hx

lemma isImmChild_self_false (p : JSStr) (hp : IsNormalizedPath p) :
    isImmChild p p = false := by
  by_cases hroot : p = js "/"
  · rw [hroot]
    decide
  · obtain ⟨hh, hnd, hl⟩ := hp
    have hl2 : p.getLast? ≠ some '/' := by
      rcases hl with h | h
      · exact absurd h hroot
      · exact h
    have hcb : childBase p = p ++ [ '/' ] := by
      unfold childBase stripTrailSlashOnce
      rw [if_neg hl2]
    unfold isImmChild isStrictDesc
    have hpre : (childBase p).isPrefixOf p = false := by
      apply Bool.eq_false_iff.mpr
      intro hc
      rw [List.isPrefixOf_iff_prefix] at hc
      have hlen := hc.length_le
      rw [hcb] at hlen
      simp at hlen
    rw [hpre]
    simp

lemma childPath_inj (p n1 n2 : JSStr) (h : childPath p n1 = childPath p n2) :
    n1 = n2 := by
  unfold childPath at h
  exact List.append_cancel_left h

lemma isSelfOrDesc_sibling_false (p n1 n2 : JSStr) (hne : n1 ≠ n2)
    (h1 : n1 ≠ []) (hs1 : '/' ∉ n1) (hs2 : '/' ∉ n2) :
    isSelfOrDesc (childPath p n1) (childPath p n2) = false := by
  apply Bool.eq_false_iff.mpr
  intro h
  unfold isSelfOrDesc at h
  rw [Bool.or_eq_true] at h
  rcases h with h | h
  · have heq : childPath p n2 = childPath p n1 := by simpa using h
    exact hne (childPath_inj p n2 n1 heq).symm
  · rw [isStrictDesc_iff] at h
    obtain ⟨t, ht⟩ := h
    rw [childBase_childPath p n1 h1 hs1] at ht
    have h2 : n2 = n1 ++ '/' :: t := by
      have hcb : childBase p ++ n2 = childBase p ++ (n1 ++ '/' :: t) := by
        rw [show childBase p ++ n2 = childPath p n2 from rfl, ht]
        unfold childPath
        simp
      exact List.append_cancel_left hcb
    exact hs2 (by rw [h2]; exact List.mem_append_right _ (List.mem_cons_self _ _))

lemma isSelfOrDesc_child_parent_false (p n : JSStr) (hp : IsNormalizedPath p)
    (hn1 : n ≠ []) (hn2 : '/' ∉ n) :
    isSelfOrDesc (childPath p n) p = false := by
  have hcbl : 1 ≤ (childBase p).length := by
    obtain ⟨-, -, -, hne⟩ := childBase_facts p hp
    cases hE : childBase p with
    | nil => exact absurd hE hne
    | cons _ _ => simp
  have hnl : 1 ≤ n.length := by
    cases n with
    | nil => exact absurd rfl hn1
    | cons _ _ => simp
  have hble : p.length + 1 ≤ (childBase p).length + 1 := by
    by_cases hroot : p = js "/"
    · rw [hroot]
      have : (childBase (js "/")).length = 1 := by decide
      rw [this]
      simp [js]
    · obtain ⟨hh, hnd, hl⟩ := hp
      have hl2 : p.getLast? ≠ some '/' := by
        rcases hl with h | h
        · exact absurd h hroot
        · exact h
      have hcb : childBase p = p ++ [ '/' ] := by
        unfold childBase stripTrailSlashOnce
        rw [if_neg hl2]
      rw [hcb]
      simp
  apply Bool.eq_false_iff.mpr
  intro h
  unfold isSelfOrDesc at h
  rw [Bool.or_eq_true] at h
  rcases h with h | h
  · have heq : p = childPath p n := by simpa using h
    have := congrArg List.length heq
    unfold childPath at this
    simp only [List.length_append] at this
    omega
  · rw [isStrictDesc_iff] at h
    obtain ⟨t, ht⟩ := h
    rw [childBase_childPath p n hn1 hn2] at ht
    have := congrArg List.length ht
    unfold childPath at this
    simp only [List.length_append, List.length_cons] at this
    omega

lemma lookupS_isSome_of_key (st : ServerState) (q : JSStr)
    (h : ∃ e ∈ st, e.1 = q) : (lookupS st q).isSome = true := by
  obtain ⟨e, he, hq⟩ := h
  unfold lookupS
  have hf : (st.find? (fun e2 => e2.1 == q)).isSome = true := by
    rw [List.find?_isSome]
    exact ⟨e, he, by simp [hq]⟩
  cases hE : st.find? (fun e2 => e2.1 == q) with
  | none => rw [hE] at hf; simp at hf
  | some e2 => rfl

lemma lookupS_eq_none_of (st : ServerState) (q : JSStr)
    (h : ∀ e ∈ st, e.1 ≠ q) : lookupS st q = none := by
  unfold lookupS
  have hf : st.find? (fun e2 => e2.1 == q) = none :=
    List.find?_eq_none.mpr (fun x hx => by simp [h x hx])
  rw [hf]
  rfl

lemma countP_lt_of_witness (st : ServerState) (A B : (JSStr × EntryKind) → Bool)
    (hAB : ∀ e ∈ st, A e = true → B e = true) (w : JSStr × EntryKind) (hw : w ∈ st)
    (hB : B w = true) (hA : A w = false) : st.countP A < st.countP B := by
  induction st with
  | nil => cases hw
  | cons x t ih =>
    rw [List.countP_cons, List.countP_cons]
    rcases List.mem_cons.mp hw with hx | hx
    · have hle : t.countP A ≤ t.countP B :=
        List.countP_mono_left (fun e he hA2 => hAB e (List.mem_cons_of_mem _ he) hA2)
      rw [← hx, hA, hB]
      simp
      omega
    · have hlt := ih (fun e he h2 => hAB e (List.mem_cons_of_mem _ he) h2) hx
      by_cases hAx : A x = true
      · rw [hAx, hAB x (List.mem_cons_self _ _) hAx]
        omega
      · have h0 : (if A x = true then 1 else 0) = 0 := by simp [hAx]
        rw [h0]
        by_cases hBx : B x = true
        · rw [hBx]
          simp
          omega
        · have h1 : (if B x = true then 1 else 0) = 0 := by simp [hBx]
          rw [h1]
          omega

lemma map_filterMap_sublist {α β γ : Type} (S : List α) (f : α → Option β)
    (g : β → γ) (h : α → γ) (hfg : ∀ a b, f a = some b → g b = h a) :
    ((S.filterMap f).map g).Sublist (S.map h) := by
  induction S with
  | nil => simp
  | cons a t ih =>
    cases hf : f a with
    | none =>
      rw [List.filterMap_cons_none hf, List.map_cons]
      exact ih.cons _
    | some b =>
      rw [List.filterMap_cons_some hf, List.map_cons, List.map_cons, hfg a b hf]
      exact ih.cons₂ _

lemma childNameOf_some (np q n : JSStr) (h : childNameOf np q = some n) :
    q = childPath np n ∧ n ≠ [] ∧ '/' ∉ n := by
  unfold childNameOf at h
  by_cases him : isImmChild np q = true
  · rw [if_pos him] at h
    simp only [Option.some.injEq] at h
    unfold isImmChild at him
    rw [Bool.and_eq_true, Bool.and_eq_true] at him
    obtain ⟨⟨hsd, hne⟩, hnc⟩ := him
    rw [isStrictDesc_iff] at hsd
    obtain ⟨t, ht⟩ := hsd
    have hdrop : q.drop (childBase np).length = t := by
      rw [ht, List.drop_left]
    rw [hdrop] at h hne hnc
    subst h
    refine ⟨by rw [ht]; rfl, ?_, ?_⟩
    · intro h0
      rw [h0] at hne
      simp at hne
    · rw [Bool.not_eq_true', List.contains_eq_any_beq, List.any_eq_false] at hnc
      intro hm
      have := hnc '/' hm
      simp at this
  · rw [if_neg him] at h
    simp at h

lemma readDirS_inv (st : ServerState) (p : JSStr) (c : JSStr × EntryKind)
    (hc : c ∈ readDirS st p) :
    ∃ e ∈ st, e.1 = childPath (normalizePath p) c.1 ∧ e.2 = c.2 ∧
      c.1 ≠ [] ∧ '/' ∉ c.1 := by
  unfold readDirS at hc
  rw [List.mem_filterMap] at hc
  obtain ⟨e, he, hfe⟩ := hc
  cases hcn : childNameOf (normalizePath p) e.1 with
  | none => rw [hcn] at hfe; simp at hfe
  | some n =>
    rw [hcn] at hfe
    change (if n.head? = some '.' then none else some (n, e.2)) = some c at hfe
    by_cases hh : n.head? = some '.'
    · rw [if_pos hh] at hfe
      simp at hfe
    · rw [if_neg hh] at hfe
      simp only [Option.some.injEq] at hfe
      obtain ⟨hq, hn1, hn2⟩ := childNameOf_some _ _ _ hcn
      refine ⟨e, he, ?_, ?_, ?_, ?_⟩
      · rw [← hfe]
        exact hq
      · rw [← hfe]
      · rw [← hfe]
        exact hn1
      · rw [← hfe]
        exact hn2

lemma readDirS_keys_sublist (st : ServerState) (p : JSStr) :
    ((readDirS st p).map (fun c => childPath (normalizePath p) c.1)).Sublist
      (st.map (fun e => e.1)) := by
  unfold readDirS
  refine map_filterMap_sublist st _ _ _ ?_
  intro e c hfc
  cases hcn : childNameOf (normalizePath p) e.1 with
  | none => rw [hcn] at hfc; simp at hfc
  | some n =>
    rw [hcn] at hfc
    change (if n.head? = some '.' then none else some (n, e.2)) = some c at hfc
    by_cases hh : n.head? = some '.'
    · rw [if_pos hh] at hfc
      simp at hfc
    · rw [if_neg hh] at hfc
      simp only [Option.some.injEq] at hfc
      obtain ⟨hq, -, -⟩ := childNameOf_some _ _ _ hcn
      rw [← hfc]
      exact hq.symm

lemma readDirS_names_nodup (st : ServerState) (p : JSStr)
    (hnd : (st.map (fun e => e.1)).Nodup) :
    ((readDirS st p).map Prod.fst).Nodup := by
  have hkeys := (readDirS_keys_sublist st p).nodup hnd
  have hEq : (readDirS st p).map (fun c => childPath (normalizePath p) c.1) =
      ((readDirS st p).map Prod.fst).map (fun n => childPath (normalizePath p) n) := by
    rw [List.map_map]
    rfl
  rw [hEq] at hkeys
  exact List.Nodup.of_map _ hkeys

lemma readDirS_mem_lookup (st : ServerState) (p : JSStr) (c : JSStr × EntryKind)
    (hc : c ∈ readDirS st p) :
    (lookupS st (childPath (normalizePath p) c.1)).isSome = true := by
  obtain ⟨e, he, hq, -, -, -⟩ := readDirS_inv st p c hc
  exact lookupS_isSome_of_key st _ ⟨e, he, hq⟩

lemma deletes_append (x y : List Req) :
    deletes (x ++ y) = deletes x ++ deletes y :=
  List.filterMap_append _ _ _


lemma rm_rec_spec : ∀ (fuel : Nat) (st : ServerState) (p : JSStr) (force : Bool),
    (∀ e ∈ st, IsNormalizedPath e.1) →
    (st.map (fun e => e.1)).Nodup →
    IsNormalizedPath p →
    (lookupS st p).isSome = true →
    st.countP (fun e => isSelfOrDesc p e.1) ≤ fuel →
    ((rmFuel fuel st p true force).2 =
        Except.ok (st.filter (fun e => !(isSelfOrDesc p e.1))) ∧
      (∃ ds, deletes (rmFuel fuel st p true force).1 = ds ++ [p] ∧
        ∀ q ∈ ds, isStrictDesc p q = true) ∧
      (lookupS st p = some EntryKind.dir →
        (deletes (rmFuel fuel st p true force).1).filter (fun q => isImmChild p q) =
          (readDirS st p).map (fun c => childPath p c.1))) := by
  intro fuel
  induction fuel with
  | zero =>
    intro st p force hn hnd hp hsome hfuel
    exfalso
    obtain ⟨k, hk⟩ := Option.isSome_iff_exists.mp hsome
    obtain ⟨e, he, he1, -⟩ := lookupS_mem st p k hk
    have hpos : 0 < st.countP (fun e => isSelfOrDesc p e.1) := by
      rw [List.countP_pos_iff]
      refine ⟨e, he, ?_⟩
      unfold isSelfOrDesc
      rw [he1]
      simp
    omega
  | succ f ih =>
    intro st p force hn hnd hp hsome hfuel
    have hnp : normalizePath p = p := normalizePath_fixed p hp
    obtain ⟨k, hk⟩ := Option.isSome_iff_exists.mp hsome
    rw [rmFuel, hnp, hk]
    cases k with
    | file =>
      refine ⟨?_, ⟨[], rfl, by simp⟩, ?_⟩
      · show Except.ok (deleteS st p) = _
        unfold deleteS
        rw [hnp]
      · intro hdir
        simp at hdir
    | dir =>
      have hcs1 : ∀ c ∈ readDirS st p, c.1 ≠ [] ∧ '/' ∉ c.1 := by
        intro c hc
        obtain ⟨e, -, -, -, h1, h2⟩ := readDirS_inv st p c hc
        exact ⟨h1, h2⟩
      have hcs2 : ((readDirS st p).map Prod.fst).Nodup := readDirS_names_nodup st p hnd
      have hcs3 : ∀ c ∈ readDirS st p, (lookupS st (childPath p c.1)).isSome = true := by
        intro c hc
        have := readDirS_mem_lookup st p c hc
        rwa [hnp] at this
      obtain ⟨ep, hep, hep1, -⟩ := lookupS_mem st p EntryKind.dir hk
      have hfuelc : ∀ c ∈ readDirS st p,
          st.countP (fun e => isSelfOrDesc (childPath p c.1) e.1) ≤ f := by
        intro c hc
        obtain ⟨hc1, hc2⟩ := hcs1 c hc
        have hlt := countP_lt_of_witness st
          (fun e => isSelfOrDesc (childPath p c.1) e.1)
          (fun e => isSelfOrDesc p e.1)
          (fun e _ hA => by
            unfold isSelfOrDesc
            rw [Bool.or_eq_true]
            exact Or.inr (isSelfOrDesc_child_to_strict p c.1 e.1 hc1 hc2 hA))
          ep hep
          (by
            show isSelfOrDesc p ep.1 = true
            unfold isSelfOrDesc
            rw [hep1]
            simp)
          (by
            show isSelfOrDesc (childPath p c.1) ep.1 = false
            rw [hep1]
            exact isSelfOrDesc_child_parent_false p c.1 hp hc1 hc2)
        omega
      have fold_spec : ∀ (cs : List (JSStr × EntryKind)) (T : ServerState)
          (acc : List Req),
          (∀ e ∈ T, IsNormalizedPath e.1) →
          (T.map (fun e => e.1)).Nodup →
          T.Sublist st →
          (∀ c ∈ cs, c.1 ≠ [] ∧ '/' ∉ c.1) →
          (cs.map Prod.fst).Nodup →
          (∀ c ∈ cs, (lookupS T (childPath p c.1)).isSome = true) →
          (∀ c ∈ cs, st.countP (fun e => isSelfOrDesc (childPath p c.1) e.1) ≤ f) →
          (List.foldl (fun acc c =>
              match acc.2 with
              | Except.error _ => acc
              | Except.ok st2 =>
                (acc.1 ++ (rmFuel f st2 (childPath p c.1) true force).1,
                  (rmFuel f st2 (childPath p c.1) true force).2))
            (acc, Except.ok T) cs).2 =
            Except.ok (T.filter (fun e =>
              !(cs.any (fun c => isSelfOrDesc (childPath p c.1) e.1)))) ∧
          ∃ D, deletes (List.foldl (fun acc c =>
              match acc.2 with
              | Except.error _ => acc
              | Except.ok st2 =>
                (acc.1 ++ (rmFuel f st2 (childPath p c.1) true force).1,
                  (rmFuel f st2 (childPath p c.1) true force).2))
            (acc, Except.ok T) cs).1 =
              deletes acc ++ D ∧
            (∀ q ∈ D, isStrictDesc p q = true) ∧
            D.filter (fun q => isImmChild p q) =
              cs.map (fun c => childPath p c.1) := by
        intro cs
        induction cs with
        | nil =>
          intro T acc hTn hTnd hTsub _ _ _ _
          refine ⟨?_, ⟨[], by simp, by simp, by simp⟩⟩
          simp
        | cons c rest ihcs =>
          intro T acc hTn hTnd hTsub hcs1T hcs2T hcs3T hfuelT
          obtain ⟨hc1, hc2⟩ := hcs1T c (List.mem_cons_self _ _)
          have hcnorm : IsNormalizedPath (childPath p c.1) :=
            childPath_normalized p c.1 hp hc1 hc2
          have hccount : T.countP (fun e => isSelfOrDesc (childPath p c.1) e.1) ≤ f :=
            le_trans (hTsub.countP_le _) (hfuelT c (List.mem_cons_self _ _))
          obtain ⟨hres, ⟨ds, hds, hdss⟩, -⟩ :=
            ih T (childPath p c.1) force hTn hTnd hcnorm
              (hcs3T c (List.mem_cons_self _ _)) hccount
          have hstep : List.foldl (fun acc c =>
              match acc.2 with
              | Except.error _ => acc
              | Except.ok st2 =>
                (acc.1 ++ (rmFuel f st2 (childPath p c.1) true force).1,
                  (rmFuel f st2 (childPath p c.1) true force).2))
            (acc, Except.ok T) (c :: rest) =
            List.foldl (fun acc c =>
              match acc.2 with
              | Except.error _ => acc
              | Except.ok st2 =>
                (acc.1 ++ (rmFuel f st2 (childPath p c.1) true force).1,
                  (rmFuel f st2 (childPath p c.1) true force).2))
            (acc ++ (rmFuel f T (childPath p c.1) true force).1,
              (rmFuel f T (childPath p c.1) true force).2) rest := rfl
          rw [hstep, hres]
          have hT1n : ∀ e ∈ T.filter (fun e =>
              !(isSelfOrDesc (childPath p c.1) e.1)), IsNormalizedPath e.1 :=
            fun e he => hTn e (List.mem_of_mem_filter he)
          have hT1nd : ((T.filter (fun e =>
              !(isSelfOrDesc (childPath p c.1) e.1))).map (fun e => e.1)).Nodup :=
            ((List.filter_sublist _).map _).nodup hTnd
          have hT1sub : (T.filter (fun e =>
              !(isSelfOrDesc (childPath p c.1) e.1))).Sublist st :=
            (List.filter_sublist _).trans hTsub
          have hrest1 : ∀ c2 ∈ rest, c2.1 ≠ [] ∧ '/' ∉ c2.1 :=
            fun c2 hc2m => hcs1T c2 (List.mem_cons_of_mem _ hc2m)
          have hrest2 : (rest.map Prod.fst).Nodup := by
            rw [List.map_cons] at hcs2T
            exact hcs2T.of_cons
          have hrest3 : ∀ c2 ∈ rest, (lookupS (T.filter (fun e =>
              !(isSelfOrDesc (childPath p c.1) e.1)))
              (childPath p c2.1)).isSome = true := by
            intro c2 hc2m
            obtain ⟨k2, hk2⟩ := Option.isSome_iff_exists.mp
              (hcs3T c2 (List.mem_cons_of_mem _ hc2m))
            obtain ⟨e2, he2, he21, -⟩ := lookupS_mem T (childPath p c2.1) k2 hk2
            refine lookupS_isSome_of_key _ _ ⟨e2, ?_, he21⟩
            rw [List.mem_filter]
            refine ⟨he2, ?_⟩
            rw [he21]
            have hnames : c.1 ≠ c2.1 := by
              rw [List.map_cons] at hcs2T
              intro hcc
              exact (List.nodup_cons.mp hcs2T).1
                (hcc ▸ List.mem_map_of_mem Prod.fst hc2m)
            obtain ⟨h21, h22⟩ := hrest1 c2 hc2m
            rw [isSelfOrDesc_sibling_false p c.1 c2.1 hnames hc1 hc2 h22]
            rfl
          have hrest4 : ∀ c2 ∈ rest,
              st.countP (fun e => isSelfOrDesc (childPath p c2.1) e.1) ≤ f :=
            fun c2 hc2m => hfuelT c2 (List.mem_cons_of_mem _ hc2m)
          obtain ⟨hfold2, D2, hD1, hD2, hD3⟩ :=
            ihcs (T.filter (fun e => !(isSelfOrDesc (childPath p c.1) e.1)))
              (acc ++ (rmFuel f T (childPath p c.1) true force).1)
              hT1n hT1nd hT1sub hrest1 hrest2 hrest3 hrest4
          refine ⟨?_, ?_⟩
          · rw [hfold2]
            congr 1
            rw [List.filter_filter]
            apply List.filter_congr
            intro e _
            rw [List.any_cons]
            cases hsd : isSelfOrDesc (childPath p c.1) e.1 with
            | true => simp [hsd]
            | false => simp [hsd]
          · refine ⟨ds ++ [childPath p c.1] ++ D2, ?_, ?_, ?_⟩
            · rw [hD1, deletes_append, hds]
              simp
            · intro q hq
              rcases List.mem_append.mp hq with hq2 | hq2
              · rcases List.mem_append.mp hq2 with hq3 | hq3
                · exact isStrictDesc_trans_child p c.1 q hc1 hc2 (hdss q hq3)
                · have hqe : q = childPath p c.1 := by simpa using hq3
                  rw [hqe]
                  exact isStrictDesc_childPath p c.1
              · exact hD2 q hq2
            · rw [List.filter_append, List.filter_append]
              have hf1 : ds.filter (fun q => isImmChild p q) = [] := by
                rw [List.filter_eq_nil_iff]
                intro q hq
                rw [not_immChild_of_strictDesc_child p c.1 q hc1 hc2 (hdss q hq)]
                simp
              have hf2 : ([childPath p c.1] : List JSStr).filter
                  (fun q => isImmChild p q) = [childPath p c.1] := by
                rw [List.filter_cons]
                rw [isImmChild_childPath p c.1 hc1 hc2]
                simp
              rw [hf1, hf2, hD3]
              simp
      obtain ⟨hfold2, D, hD1, hD2, hD3⟩ :=
        fold_spec (readDirS st p) st [] hn hnd (List.Sublist.refl st)
          hcs1 hcs2 hcs3 hfuelc
      have hDtr : deletes (List.foldl (fun acc c =>
          match acc.2 with
          | Except.error _ => acc
          | Except.ok st2 =>
            (acc.1 ++ (rmFuel f st2 (childPath p c.1) true force).1,
              (rmFuel f st2 (childPath p c.1) true force).2))
        (([] : List Req), (Except.ok st : Except WebDAVErr ServerState))
        (readDirS st p)).1 = D := by
        rw [hD1]
        rfl
      refine ⟨?_, ?_, ?_⟩
      · rw [hfold2]
        show Except.ok (deleteS (st.filter (fun e =>
          !((readDirS st p).any (fun c => isSelfOrDesc (childPath p c.1) e.1)))) p) = _
        unfold deleteS
        rw [hnp]
        congr 1
        rw [List.filter_filter]
        apply List.filter_congr
        intro e _
        cases hsd : isSelfOrDesc p e.1 with
        | true => simp [hsd]
        | false =>
          simp only [hsd, Bool.not_false, Bool.true_and]
          rw [Bool.not_eq_true', List.any_eq_false]
          intro c hc
          obtain ⟨hc1, hc2⟩ := hcs1 c hc
          intro hcontra
          have hst := isSelfOrDesc_child_to_strict p c.1 e.1 hc1 hc2 hcontra
          have hor : isSelfOrDesc p e.1 = true := by
            unfold isSelfOrDesc
            rw [Bool.or_eq_true]
            exact Or.inr hst
          rw [hor] at hsd
          cases hsd
      · refine ⟨D, ?_, hD2⟩
        rw [hfold2]
        show deletes ([Req.propfind p, Req.propfind p] ++ (List.foldl (fun acc c =>
            match acc.2 with
            | Except.error _ => acc
            | Except.ok st2 =>
              (acc.1 ++ (rmFuel f st2 (childPath p c.1) true force).1,
                (rmFuel f st2 (childPath p c.1) true force).2))
          (([] : List Req), (Except.ok st : Except WebDAVErr ServerState))
          (readDirS st p)).1 ++ [Req.delete p]) = D ++ [p]
        rw [deletes_append, deletes_append, hDtr]
        rfl
      · intro _
        rw [hfold2]
        show (deletes ([Req.propfind p, Req.propfind p] ++ (List.foldl (fun acc c =>
            match acc.2 with
            | Except.error _ => acc
            | Except.ok st2 =>
              (acc.1 ++ (rmFuel f st2 (childPath p c.1) true force).1,
                (rmFuel f st2 (childPath p c.1) true force).2))
          (([] : List Req), (Except.ok st : Except WebDAVErr ServerState))
          (readDirS st p)).1 ++ [Req.delete p])).filter
            (fun q => isImmChild p q) = (readDirS st p).map (fun c => childPath p c.1)
        rw [deletes_append, deletes_append, hDtr]
        show ((([] : List JSStr) ++ D) ++ [p]).filter (fun q => isImmChild p q) = _
        rw [List.nil_append, List.filter_append]
        have hfp : ([p] : List JSStr).filter (fun q => isImmChild p q) = [] := by
          rw [List.filter_cons]
          rw [isImmChild_self_false p hp]
          simp
        rw [hfp, hD3]
        simp

/-- C5: for a directory target of `rm` on the idealized server (normalized
nodup ancestor-listed state): without `recursive` the children are listed
first and a non-empty directory fails with the plain `Directory not empty`
error before any DELETE; with `recursive` the call succeeds, its DELETE
trace consists of strict descendants of the directory followed by the
directory itself last (children removed before their parent), the
immediate-child DELETEs appear exactly in the server listing order of
`readDir`, and afterwards the path no longer exists. -/
theorem rm_spec (fuel : Nat) (st : ServerState) (p : JSStr) (force : Bool)
    (hn : ∀ e ∈ st, IsNormalizedPath e.1)
    (hnd : (st.map (fun e => e.1)).Nodup)
    (hp : IsNormalizedPath p)
    (hdir : lookupS st p = some EntryKind.dir)
    (hfuel : st.countP (fun e => isSelfOrDesc p e.1) ≤ fuel) :
    (readDirS st p ≠ [] →
      rmFuel (fuel + 1) st p false force =
        ([Req.propfind p, Req.propfind p], Except.error (WebDAVErr.generic none))) ∧
    ((rmFuel fuel st p true force).2 =
        Except.ok (st.filter (fun e => !(isSelfOrDesc p e.1))) ∧
      (∃ ds, deletes (rmFuel fuel st p true force).1 = ds ++ [p] ∧
        ∀ q ∈ ds, isStrictDesc p q = true) ∧
      (deletes (rmFuel fuel st p true force).1).filter (fun q => isImmChild p q) =
        (readDirS st p).map (fun c => childPath p c.1) ∧
      lookupS (st.filter (fun e => !(isSelfOrDesc p e.1))) p = none) := by
  have hnp : normalizePath p = p := normalizePath_fixed p hp
  have hsome : (lookupS st p).isSome = true := by rw [hdir]; rfl
  obtain ⟨h1, h2, h3⟩ := rm_rec_spec fuel st p force hn hnd hp hsome hfuel
  refine ⟨?_, h1, h2, h3 hdir, ?_⟩
  · intro hne
    rw [rmFuel, hnp, hdir]
    show (if readDirS st p = [] then
        ([Req.propfind p, Req.propfind p, Req.delete p], Except.ok (deleteS st p))
      else ([Req.propfind p, Req.propfind p],
        Except.error (WebDAVErr.generic none))) = _
    rw [if_neg hne]
  · apply lookupS_eq_none_of
    intro e he
    rw [List.mem_filter] at he
    intro hep
    have : isSelfOrDesc p e.1 = true := by
      unfold isSelfOrDesc
      rw [hep]
      simp
    rw [this] at he
    exact absurd he.2 (by simp)

/-- Witness for C5 on the tree `/a` ⊃ `/a/b` ⊃ `/a/b/f.txt`: the
non-recursive call fails (directory not empty), and the recursive call
deletes the nested file, then the subdirectory, then the root, in that
order, leaving nothing behind. -/
theorem rm_spec_witness :
    rmFuel 4 [(js "/a", EntryKind.dir), (js "/a/b", EntryKind.dir),
        (js "/a/b/f.txt", EntryKind.file)] (js "/a") false false =
      ([Req.propfind (js "/a"), Req.propfind (js "/a")],
        Except.error (WebDAVErr.generic none)) ∧
    deletes (rmFuel 3 [(js "/a", EntryKind.dir), (js "/a/b", EntryKind.dir),
        (js "/a/b/f.txt", EntryKind.file)] (js "/a") true false).1 =
      [js "/a/b/f.txt", js "/a/b", js "/a"] ∧
    (rmFuel 3 [(js "/a", EntryKind.dir), (js "/a/b", EntryKind.dir),
        (js "/a/b/f.txt", EntryKind.file)] (js "/a") true false).2 =
      Except.ok [] ∧
    lookupS ([] : ServerState) (js "/a") = none :=
  ⟨(rm_spec 3 [(js "/a", EntryKind.dir), (js "/a/b", EntryKind.dir),
      (js "/a/b/f.txt", EntryKind.file)] (js "/a") false (by decide) (by decide)
      (by decide) (by decide) (by decide)).1 (by decide),
   by decide, rfl, by decide⟩
